import Mathlib

/-!
Verification development for the py2vyu / pyvyu annotation library.

The canonical source is src/py2vyu/py2vyu.py (src/pyvyu/pyvyu.py is a near
duplicate; where the two differ the py2vyu behaviour is modelled).  Python
text strings are embedded as Lean character lists (List Char), Python
integers as Lean Int, and Python exceptions as Option results (none means
the call raised).
-/

namespace Py2vyu

/-! ## Association lists: the embedding of Python dicts.

Python dicts preserve insertion order; an update of an existing key keeps
its position, otherwise the pair is appended at the end.  Deletion removes
the key.  These mirror dict assignment, lookup and deletion exactly. -/

/-- Lookup of a key in an ordered association list (Python dict read). -/
def alookup {α : Type} : List (String × α) → String → Option α
  | [], _ => none
  | (k', v') :: rest, k => if k' = k then some v' else alookup rest k

/-- Assignment of a key in an ordered association list (Python dict write):
updates the first occurrence in place, otherwise appends. -/
def aset {α : Type} : List (String × α) → String → α → List (String × α)
  | [], k, v => [(k, v)]
  | (k', v') :: rest, k, v =>
    if k' = k then (k, v) :: rest else (k', v') :: aset rest k v

/-- Deletion of a key from an ordered association list (Python dict del /
os.remove on a path map). -/
def adel {α : Type} (m : List (String × α)) (k : String) : List (String × α) :=
  m.filter (fun kv => kv.1 ≠ k)

theorem alookup_aset {α : Type} (m : List (String × α)) (k k' : String) (v : α) :
    alookup (aset m k v) k' = if k = k' then some v else alookup m k' := by
  induction m with
  | nil => simp [aset, alookup]
  | cons kv rest ih =>
    obtain ⟨k₀, v₀⟩ := kv
    by_cases h₀ : k₀ = k
    · subst h₀
      by_cases h₁ : k₀ = k' <;> simp [aset, alookup, h₁]
    · by_cases h₁ : k₀ = k'
      · subst h₁
        have hne : ¬k = k₀ := fun h => h₀ h.symm
        simp [aset, alookup, h₀, hne]
      · simp [aset, alookup, h₀, h₁, ih]

theorem isSome_alookup_aset {α : Type} (m : List (String × α)) (k k' : String) (v : α)
    (hk : (alookup m k).isSome) :
    (alookup (aset m k v) k').isSome = (alookup m k').isSome := by
  rw [alookup_aset]
  by_cases h : k = k'
  · subst h; simp [hk]
  · simp [h]

/-! ## Timestamp codec (py2vyu.py lines 388-411).

Python str values are embedded as List Char.  Python int(s) parsing is
embedded for an optional sign followed by decimal digits (Python also
accepts surrounding whitespace and digit-group underscores; no claim
depends on those forms).  A raised ValueError is embedded as none. -/

/-- The decimal digit character for a digit value 0-9. -/
def digitChar : Nat → Char
  | 0 => '0' | 1 => '1' | 2 => '2' | 3 => '3' | 4 => '4'
  | 5 => '5' | 6 => '6' | 7 => '7' | 8 => '8' | 9 => '9'
  | _ => '*'

/-- Numeric value of a decimal digit character; none for a non-digit. -/
def digitVal (c : Char) : Option Nat :=
  if c.isDigit then some (c.toNat - 48) else none

/-- Decimal rendering of a Nat, fuel-indexed so that it is structural
recursion and reduces inside the kernel.  Fuel n+1 always suffices. -/
def natCharsAux : Nat → Nat → List Char
  | 0, _ => []
  | fuel + 1, n =>
    if n < 10 then [digitChar n]
    else natCharsAux fuel (n / 10) ++ [digitChar (n % 10)]

/-- Decimal rendering of a Nat (the digits str(n) would produce). -/
def natChars (n : Nat) : List Char := natCharsAux (n + 1) n

/-- Zero-padded fixed-width rendering: the format spec {:0w.0f} applied to
a non-negative integral value. -/
def padZero (w : Nat) (n : Nat) : List Char :=
  let s := natChars n
  List.replicate (w - s.length) '0' ++ s

/-- Left-to-right decimal accumulation of a digit string. -/
def digitsValAux : Nat → List Char → Option Nat
  | acc, [] => some acc
  | acc, c :: cs =>
    match digitVal c with
    | none => none
    | some d => digitsValAux (acc * 10 + d) cs

/-- Value of a non-empty all-digit string; none otherwise. -/
def digitsVal : List Char → Option Nat
  | [] => none
  | c :: cs => digitsValAux 0 (c :: cs)

/-- Python int(s) on a stripped string: optional sign then decimal digits;
none embeds the ValueError raised on malformed input. -/
def pyInt (cs : List Char) : Option Int :=
  match cs with
  | [] => none
  | c :: rest =>
    if c = '-' then (digitsVal rest).map (fun n => -(n : Int))
    else if c = '+' then (digitsVal rest).map (fun n => (n : Int))
    else (digitsVal (c :: rest)).map (fun n => (n : Int))

/-- Python str.split(":"): splits at every colon, keeping empty pieces;
the empty string yields one empty piece. -/
def splitOnColon : List Char → List (List Char)
  | [] => [[]]
  | c :: rest =>
    if c = ':' then [] :: splitOnColon rest
    else
      let ps := splitOnColon rest
      (c :: ps.headD []) :: ps.tail

/-- to_millis (py2vyu.py lines 388-398) on a text argument: the parts are
zipped with factors [1, 60, 60, 1000] (so parts beyond the fourth are
ignored and shorter inputs use fewer factors, exactly as zip truncates),
accumulating ms = ms * factor + int(part).  The numeric-argument branch of
to_millis returns its input unchanged and is embedded at call sites by
passing the integer through. -/
def to_millis (timestamp : List Char) : Option Int :=
  let parts := splitOnColon timestamp
  (List.zip [(1 : Int), 60, 60, 1000] parts).foldlM
    (fun ms fp => (pyInt fp.2).map (fun n => ms * fp.1 + n)) 0

/-- The four-part colon-separated rendering HH:MM:SS:mmm of the given
already-reduced components. -/
def renderTS (h m s p : Nat) : List Char :=
  padZero 2 h ++ ':' :: (padZero 2 m ++ ':' :: (padZero 2 s ++ ':' :: padZero 3 p))

/-- to_timestamp (py2vyu.py lines 401-411): repeated divmod by the factors
[1000, 60, 60, 24] (collecting ms % factor and continuing with the floor
quotient), reversed and formatted as {:02}:{:02}:{:02}:{:03}.  Python's %
and floor division on a positive divisor coincide with Int.emod/Int.ediv,
so every collected part is non-negative and toNat is lossless.  The
reference uses float division; floor of it is exact on this domain. -/
def to_timestamp (millis : Int) : List Char :=
  renderTS (millis / 1000 / 60 / 60 % 24).toNat (millis / 1000 / 60 % 60).toNat
    (millis / 1000 % 60).toNat (millis % 1000).toNat

/-! ### Codec lemmas -/

theorem digitChar_mem (d : Nat) :
    digitChar d ∈ ['0', '1', '2', '3', '4', '5', '6', '7', '8', '9', '*'] := by
  unfold digitChar
  split <;> simp

theorem digitChar_ne (d : Nat) :
    digitChar d ≠ '-' ∧ digitChar d ≠ '+' ∧ digitChar d ≠ ':' := by
  have h := digitChar_mem d
  simp only [List.mem_cons, List.not_mem_nil, or_false] at h
  rcases h with h|h|h|h|h|h|h|h|h|h|h <;> rw [h] <;> exact (by decide)

theorem digitVal_digitChar (d : Nat) (h : d < 10) : digitVal (digitChar d) = some d := by
  interval_cases d <;> decide

theorem natCharsAux_fuel : ∀ fuel₁ fuel₂ n, n < fuel₁ → n < fuel₂ →
    natCharsAux fuel₁ n = natCharsAux fuel₂ n := by
  intro fuel₁
  induction fuel₁ with
  | zero => intro fuel₂ n h; omega
  | succ f₁ ih =>
    intro fuel₂ n h₁ h₂
    cases fuel₂ with
    | zero => omega
    | succ f₂ =>
      by_cases hn : n < 10
      · simp [natCharsAux, hn]
      · have hd : n / 10 < n := Nat.div_lt_self (by omega) (by omega)
        simp only [natCharsAux, hn, if_false]
        rw [ih f₂ (n / 10) (by omega) (by omega)]

theorem natChars_small {n : Nat} (h : n < 10) : natChars n = [digitChar n] := by
  simp [natChars, natCharsAux, h]

theorem natChars_large {n : Nat} (h : 10 ≤ n) :
    natChars n = natChars (n / 10) ++ [digitChar (n % 10)] := by
  have hd : n / 10 < n := Nat.div_lt_self (by omega) (by omega)
  have : natCharsAux (n + 1) n = natCharsAux n (n / 10) ++ [digitChar (n % 10)] := by
    simp [natCharsAux, Nat.not_lt.mpr h]
  rw [natChars, this, natChars,
    natCharsAux_fuel n (n / 10 + 1) (n / 10) (by omega) (by omega)]

theorem natChars_ne_nil (n : Nat) : natChars n ≠ [] := by
  by_cases h : n < 10
  · simp [natChars_small h]
  · simp [natChars_large (by omega : 10 ≤ n)]

theorem mem_natChars_ne {n : Nat} : ∀ c ∈ natChars n,
    c ≠ ':' ∧ c ≠ '-' ∧ c ≠ '+' := by
  induction n using Nat.strong_induction_on with
  | _ n ih =>
    intro c hc
    by_cases h : n < 10
    · rw [natChars_small h] at hc
      simp at hc
      subst hc
      exact ⟨(digitChar_ne n).2.2, (digitChar_ne n).1, (digitChar_ne n).2.1⟩
    · rw [natChars_large (by omega : 10 ≤ n)] at hc
      rcases List.mem_append.mp hc with h₁ | h₂
      · exact ih (n / 10) (Nat.div_lt_self (by omega) (by omega)) c h₁
      · simp at h₂
        subst h₂
        exact ⟨(digitChar_ne _).2.2, (digitChar_ne _).1, (digitChar_ne _).2.1⟩

theorem natChars_head {n : Nat} : ∃ c cs, natChars n = c :: cs ∧ c ≠ '-' ∧ c ≠ '+' := by
  rcases hn : natChars n with _ | ⟨c, cs⟩
  · exact absurd hn (natChars_ne_nil n)
  · have hc : c ∈ natChars n := by rw [hn]; exact List.mem_cons_self _ _
    exact ⟨c, cs, rfl, (mem_natChars_ne c hc).2.1, (mem_natChars_ne c hc).2.2⟩

theorem digitsValAux_append (acc : Nat) (xs ys : List Char) :
    digitsValAux acc (xs ++ ys) =
      match digitsValAux acc xs with
      | none => none
      | some a => digitsValAux a ys := by
  induction xs generalizing acc with
  | nil => simp [digitsValAux]
  | cons c cs ih =>
    simp only [List.cons_append, digitsValAux]
    cases digitVal c with
    | none => simp
    | some d => simp [ih]

theorem digitsValAux_single (acc d : Nat) (c : Char) (h : digitVal c = some d) :
    digitsValAux acc [c] = some (acc * 10 + d) := by
  simp [digitsValAux, h]

theorem digitsValAux_natChars (n : Nat) : ∀ acc,
    digitsValAux acc (natChars n) = some (acc * 10 ^ (natChars n).length + n) := by
  induction n using Nat.strong_induction_on with
  | _ n ih =>
    intro acc
    by_cases h : n < 10
    · rw [natChars_small h]
      simp [digitsValAux, digitVal_digitChar n h]
    · have h10 : 10 ≤ n := by omega
      have hd : n / 10 < n := Nat.div_lt_self (by omega) (by omega)
      rw [natChars_large h10, digitsValAux_append, ih (n / 10) hd acc]
      show digitsValAux (acc * 10 ^ (natChars (n / 10)).length + n / 10) [digitChar (n % 10)]
          = some (acc * 10 ^ (natChars (n / 10) ++ [digitChar (n % 10)]).length + n)
      rw [digitsValAux_single _ (n % 10) _ (digitVal_digitChar (n % 10) (Nat.mod_lt n (by omega)))]
      congr 1
      have hlen : (natChars (n / 10) ++ [digitChar (n % 10)]).length
          = (natChars (n / 10)).length + 1 := by simp
      rw [hlen, pow_succ]
      have hmod : n / 10 * 10 + n % 10 = n := by omega
      calc (acc * 10 ^ (natChars (n / 10)).length + n / 10) * 10 + n % 10
          = acc * (10 ^ (natChars (n / 10)).length * 10) + (n / 10 * 10 + n % 10) := by ring
        _ = acc * (10 ^ (natChars (n / 10)).length * 10) + n := by rw [hmod]

theorem digitsVal_natChars (n : Nat) : digitsVal (natChars n) = some n := by
  obtain ⟨c, cs, hcs, -, -⟩ := @natChars_head n
  rw [hcs]
  show digitsValAux 0 (c :: cs) = some n
  rw [← hcs, digitsValAux_natChars]
  simp

theorem digitsValAux_zeros (k : Nat) (cs : List Char) :
    digitsValAux 0 (List.replicate k '0' ++ cs) = digitsValAux 0 cs := by
  induction k with
  | zero => simp
  | succ k ih =>
    have : digitVal '0' = some 0 := by decide
    simp only [List.replicate_succ, List.cons_append, digitsValAux, this]
    exact ih

theorem pyInt_padZero (w n : Nat) : pyInt (padZero w n) = some (n : Int) := by
  obtain ⟨c, cs, hcs, hm, hp⟩ := @natChars_head n
  rw [padZero]
  cases hk : w - (natChars n).length with
  | zero =>
    simp only [hk, List.replicate_zero, List.nil_append]
    rw [hcs]
    simp only [pyInt, if_neg hm, if_neg hp]
    have hd : digitsVal (c :: cs) = some n := by
      show digitsValAux 0 (c :: cs) = some n
      rw [← hcs, digitsValAux_natChars]
      simp
    rw [hd]
    rfl
  | succ k =>
    simp only [hk, List.replicate_succ, List.cons_append]
    simp only [pyInt, if_neg (by decide : ¬('0' : Char) = '-'),
      if_neg (by decide : ¬('0' : Char) = '+')]
    have hd : digitsVal ('0' :: (List.replicate k '0' ++ natChars n)) = some n := by
      show digitsValAux 0 ('0' :: (List.replicate k '0' ++ natChars n)) = some n
      have hrep : '0' :: (List.replicate k '0' ++ natChars n)
          = List.replicate (k + 1) '0' ++ natChars n := by
        simp [List.replicate_succ]
      rw [hrep, digitsValAux_zeros, digitsValAux_natChars]
      simp
    rw [hd]
    rfl

theorem not_colon_mem_padZero (w n : Nat) : ':' ∉ padZero w n := by
  intro hc
  rcases List.mem_append.mp hc with h | h
  · exact absurd (List.eq_of_mem_replicate h) (by decide)
  · exact absurd rfl (mem_natChars_ne ':' h).1

theorem splitOnColon_append (a rest : List Char) (ha : ':' ∉ a) :
    splitOnColon (a ++ ':' :: rest) = a :: splitOnColon rest := by
  induction a with
  | nil => simp [splitOnColon]
  | cons c a' ih =>
    have hc : ¬c = ':' := fun h => ha (h ▸ List.mem_cons_self c a')
    have ha' : ':' ∉ a' := fun h => ha (List.mem_cons_of_mem c h)
    rw [List.cons_append]
    simp only [splitOnColon, if_neg hc, ih ha']
    simp

theorem splitOnColon_nocolon (a : List Char) (ha : ':' ∉ a) :
    splitOnColon a = [a] := by
  induction a with
  | nil => rfl
  | cons c a' ih =>
    have hc : ¬c = ':' := fun h => ha (h ▸ List.mem_cons_self c a')
    have ha' : ':' ∉ a' := fun h => ha (List.mem_cons_of_mem c h)
    simp only [splitOnColon, if_neg hc, ih ha']
    simp

theorem to_millis_renderTS (h m s p : Nat) :
    to_millis (renderTS h m s p) = some ((((h : Int) * 60 + m) * 60 + s) * 1000 + p) := by
  have hsplit : splitOnColon (renderTS h m s p) =
      [padZero 2 h, padZero 2 m, padZero 2 s, padZero 3 p] := by
    rw [renderTS, splitOnColon_append _ _ (not_colon_mem_padZero 2 h),
      splitOnColon_append _ _ (not_colon_mem_padZero 2 m),
      splitOnColon_append _ _ (not_colon_mem_padZero 2 s),
      splitOnColon_nocolon _ (not_colon_mem_padZero 3 p)]
  simp only [to_millis, hsplit, List.zip_cons_cons, List.zip_nil_right, List.foldlM,
    pyInt_padZero, Option.map_some', Option.some_bind, Option.bind_eq_bind]
  norm_num

theorem to_timestamp_cast (n : Nat) :
    to_timestamp (n : Int) = renderTS (n / 1000 / 60 / 60 % 24) (n / 1000 / 60 % 60)
      (n / 1000 % 60) (n % 1000) := by
  rw [to_timestamp]
  congr 1

theorem zip_factors_snd (parts : List (List Char)) :
    (List.zip [(1 : Int), 60, 60, 1000] parts).map Prod.snd = parts.take 4 := by
  rcases parts with _ | ⟨a, _ | ⟨b, _ | ⟨c, _ | ⟨d, rest⟩⟩⟩⟩ <;> simp

theorem foldlM_millis_isSome (l : List (Int × List Char)) : ∀ a : Int,
    ((l.foldlM (fun ms fp => (pyInt fp.2).map (fun n => ms * fp.1 + n)) a).isSome
      ↔ ∀ fp ∈ l, (pyInt fp.2).isSome) := by
  induction l with
  | nil => simp
  | cons fp l ih =>
    intro a
    rw [List.foldlM_cons]
    cases hp : pyInt fp.2 with
    | none => simp [hp]
    | some v => simp [hp, ih]

/-- C4 counterexample: the second half of the claim fails for the well-formed
string 24:00:00:000 (minutes, seconds, milliseconds all in range): to_millis
maps it to 86400000, but to_timestamp reduces the hour component mod 24 and
returns 00:00:00:000, not the original string. -/
theorem timestamp_roundtrip_cex :
    to_millis "24:00:00:000".data = some 86400000 ∧
    to_timestamp 86400000 = "00:00:00:000".data ∧
    to_timestamp 86400000 ≠ "24:00:00:000".data := by
  refine ⟨by decide, by decide, by decide⟩

/-- C4 (amended): to_millis inverts to_timestamp on [0, 24*3600*1000); and
for a well-formed 4-part timestamp whose hour component is two digits and
below 24 (minutes, seconds below 60, milliseconds below 1000), to_timestamp
inverts to_millis.  The original claim placed no bound on the hour
component, but to_timestamp reduces hours mod 24, so strings with hours
of 24 or more do not round-trip. -/
theorem timestamp_codec_roundtrip (n : Int) (h m s p : Nat)
    (hn0 : 0 ≤ n) (hn : n < 86400000)
    (hh : h < 24) (hm60 : m < 60) (hs : s < 60) (hp : p < 1000) :
    to_millis (to_timestamp n) = some n ∧
    to_millis (renderTS h m s p) = some ((((h : Int) * 60 + m) * 60 + s) * 1000 + p) ∧
    to_timestamp ((((h : Int) * 60 + m) * 60 + s) * 1000 + p) = renderTS h m s p := by
  refine ⟨?_, to_millis_renderTS h m s p, ?_⟩
  · obtain ⟨na, rfl⟩ := Int.eq_ofNat_of_zero_le hn0
    have hna : na < 86400000 := by exact_mod_cast hn
    rw [to_timestamp_cast, to_millis_renderTS]
    have key : ((na / 1000 / 60 / 60 % 24 * 60 + na / 1000 / 60 % 60) * 60
        + na / 1000 % 60) * 1000 + na % 1000 = na := by omega
    congr 1
    exact_mod_cast key
  · have hN : (((h : Int) * 60 + m) * 60 + s) * 1000 + p
        = ((((h * 60 + m) * 60 + s) * 1000 + p : Nat) : Int) := by push_cast; ring
    rw [hN, to_timestamp_cast]
    have e1 : (((h * 60 + m) * 60 + s) * 1000 + p) / 1000 / 60 / 60 % 24 = h := by omega
    have e2 : (((h * 60 + m) * 60 + s) * 1000 + p) / 1000 / 60 % 60 = m := by omega
    have e3 : (((h * 60 + m) * 60 + s) * 1000 + p) / 1000 % 60 = s := by omega
    have e4 : (((h * 60 + m) * 60 + s) * 1000 + p) % 1000 = p := by omega
    rw [e1, e2, e3, e4]

/-- C4 witness: the amended round-trip evaluated at 45296789 ms
(12:34:56:789) and at the components 12, 34, 56, 789. -/
theorem timestamp_codec_roundtrip_witness :
    to_millis (to_timestamp 45296789) = some 45296789 ∧
    to_millis (renderTS 12 34 56 789)
      = some ((((12 : Int) * 60 + 34) * 60 + 56) * 1000 + 789) ∧
    to_timestamp ((((12 : Int) * 60 + 34) * 60 + 56) * 1000 + 789) = renderTS 12 34 56 789 :=
  timestamp_codec_roundtrip 45296789 12 34 56 789 (by norm_num) (by norm_num)
    (by norm_num) (by norm_num) (by norm_num) (by norm_num)

/-- C6 counterexample: the input 01:02 splits into two parts, not four, yet
to_millis returns normally (the zip against the factor list silently
truncates), contradicting the claim that a part count other than four
fails. -/
theorem to_millis_partcount_cex :
    to_millis "01:02".data = some 62 ∧ (splitOnColon "01:02".data).length ≠ 4 := by
  exact ⟨by decide, by decide⟩

/-- C6 (amended): to_millis on a text input returns normally exactly when
each of the first four colon-separated parts (fewer if the input has fewer)
parses as an integer; the part count itself is never checked, so malformed
part counts with integer parts return normally. -/
theorem to_millis_success_iff (cs : List Char) :
    (to_millis cs).isSome ↔ ∀ part ∈ (splitOnColon cs).take 4, (pyInt part).isSome := by
  rw [show (to_millis cs).isSome = ((List.zip [(1 : Int), 60, 60, 1000] (splitOnColon cs)).foldlM
      (fun ms fp => (pyInt fp.2).map (fun n => ms * fp.1 + n)) 0).isSome from rfl]
  rw [foldlM_millis_isSome]
  constructor
  · intro hall part hpart
    rw [← zip_factors_snd (splitOnColon cs)] at hpart
    obtain ⟨fp, hfp, rfl⟩ := List.mem_map.mp hpart
    exact hall fp hfp
  · intro hall fp hfp
    apply hall
    rw [← zip_factors_snd (splitOnColon cs)]
    exact List.mem_map_of_mem _ hfp

/-! ## Entity model (py2vyu.py lines 95-385).

A Cell's _parent back-reference is embedded by passing the parent Column
explicitly to the operations that consult its codelist. -/

/-- A Python value stored in a cell's values dict: parsed code values are
strings, ordinals copied by merge_columns are integers, and None can be
stored through the public API. -/
inductive Value : Type
  | str (s : String)
  | int (n : Int)
  | none_
deriving DecidableEq

/-- Cell (py2vyu.py lines 295-385): _ordinal, onset, offset and the values
dict.  Construction applies to_millis to onset/offset; both entity-level
call sites pass integers, which to_millis returns unchanged, so the fields
are embedded as Int. -/
structure Cell where
  ordinal : Value
  onset : Int
  offset : Int
  values : List (String × Value)
deriving DecidableEq

/-- Column (py2vyu.py lines 228-292). -/
structure Column where
  name : String
  codelist : List String
  cells : List Cell
deriving DecidableEq

/-- The dict comprehension seeding every declared code to the empty string
(py2vyu.py line 303); duplicate code names collapse as in a Python dict. -/
def initValues (codes : List String) : List (String × Value) :=
  codes.foldl (fun m k => aset m k (Value.str "")) []

/-- to_millis applied to a stored value: numbers pass through unchanged,
text is parsed, None raises (AttributeError on .split). -/
def to_millis_val : Value → Option Int
  | .int n => some n
  | .str s => to_millis s.data
  | .none_ => none

/-- Cell.change_code (py2vyu.py lines 319-329); none embeds the exception
raised for an unknown code. -/
def Cell.change_code (c : Cell) (code : String) (v : Value) : Option Cell :=
  if code = "ordinal" then some { c with ordinal := v }
  else if code = "onset" then (to_millis_val v).map (fun n => { c with onset := n })
  else if code = "offset" then (to_millis_val v).map (fun n => { c with offset := n })
  else if (alookup c.values code).isSome then some { c with values := aset c.values code v }
  else none

/-- Cell.get_code (py2vyu.py lines 331-341); none embeds the exception
raised for an unknown code. -/
def Cell.get_code (c : Cell) (code : String) : Option Value :=
  if code = "ordinal" then some c.ordinal
  else if code = "onset" then some (Value.int c.onset)
  else if code = "offset" then some (Value.int c.offset)
  else alookup c.values code

/-- Cell.set_values (py2vyu.py lines 343-345): zips the parent codelist
with the positional values, so extras on either side are ignored. -/
def set_values (col : Column) (c : Cell) (vals : List Value) : Option Cell :=
  (col.codelist.zip vals).foldlM (fun c kv => c.change_code kv.1 kv.2) c

/-- Cell.spans (py2vyu.py lines 361-362). -/
def Cell.spans (c : Cell) (t : Int) : Bool := c.onset ≤ t && t ≤ c.offset

/-- Cell.isempty (py2vyu.py lines 364-366): true when every stored code
value is the empty string or None (integers are neither). -/
def Value.isEmptyOrNone : Value → Bool
  | .str s => s = ""
  | .int _ => false
  | .none_ => true

def Cell.isempty (c : Cell) : Bool := c.values.all (fun kv => kv.2.isEmptyOrNone)

/-- The fresh Cell built at the start of Column.new_cell: Cell(parent=self)
with default ordinal 0, onset 0, offset 0 and every declared code seeded
to the empty string. -/
def mkBaseCell (col : Column) : Cell :=
  { ordinal := Value.int 0, onset := 0, offset := 0, values := initValues col.codelist }

/-- Column.new_cell (py2vyu.py lines 236-251): positional values are set
via set_values, keyword arguments via change_code, codes still undefined
are seeded to the empty string, and the finished cell is appended. -/
def Column.new_cell (col : Column) (vals : List Value) (kwargs : List (String × Value)) :
    Option (Column × Cell) :=
  match set_values col (mkBaseCell col) vals with
  | none => none
  | some c1 =>
    match kwargs.foldlM (fun c kv => c.change_code kv.1 kv.2) c1 with
    | none => none
    | some c2 =>
      match (col.codelist.filter (fun k => (alookup c2.values k).isNone)).foldlM
          (fun c k => c.change_code k (Value.str "")) c2 with
      | none => none
      | some c3 => some ({ col with cells := col.cells ++ [c3] }, c3)

/-- Column.cell_at (py2vyu.py lines 256-260): the first cell in storage
order spanning the time point. -/
def Column.cell_at (col : Column) (t : Int) : Option Cell :=
  col.cells.find? (fun c => c.spans t)

/-! ### Key-set invariant of the values dict (C8) -/

theorem alookup_initValues (codes : List String) (k : String) :
    alookup (initValues codes) k = if k ∈ codes then some (Value.str "") else none := by
  suffices h : ∀ m0, alookup (codes.foldl (fun m k => aset m k (Value.str "")) m0) k
      = if k ∈ codes then some (Value.str "") else alookup m0 k by
    simpa [initValues, alookup] using h []
  induction codes with
  | nil => intro m0; simp
  | cons c0 cs ih =>
    intro m0
    simp only [List.foldl_cons]
    rw [ih]
    by_cases hk : k ∈ cs
    · simp [hk, List.mem_cons]
    · by_cases hk0 : k = c0
      · subst hk0
        simp [hk, alookup_aset]
      · have hmem : ¬k ∈ c0 :: cs := by simp [hk, hk0]
        have hne : ¬c0 = k := fun hcc => hk0 hcc.symm
        simp [hk, hmem, alookup_aset, hne]

theorem change_code_keys (c c' : Cell) (code : String) (v : Value)
    (h : c.change_code code v = some c') (k : String) :
    (alookup c'.values k).isSome = (alookup c.values k).isSome := by
  rw [Cell.change_code] at h
  split_ifs at h with h1 h2 h3 h4
  · cases h; rfl
  · obtain ⟨n, -, rfl⟩ := Option.map_eq_some'.mp h
    rfl
  · obtain ⟨n, -, rfl⟩ := Option.map_eq_some'.mp h
    rfl
  · cases h
    exact isSome_alookup_aset c.values code k v h4

theorem foldlM_option_preserve {α β : Type} (f : β → α → Option β) (P : β → Prop) :
    ∀ (l : List α) (b b' : β), l.foldlM f b = some b' → P b →
      (∀ x ∈ l, ∀ y y', f y x = some y' → P y → P y') → P b' := by
  intro l
  induction l with
  | nil =>
    intro b b' hf hP _
    simp only [List.foldlM_nil] at hf
    cases hf
    exact hP
  | cons x l ih =>
    intro b b' hf hP hstep
    rw [List.foldlM_cons] at hf
    cases hx : f b x with
    | none => rw [hx] at hf; exact Option.noConfusion hf
    | some y =>
      rw [hx] at hf
      exact ih y b' hf (hstep x (List.mem_cons_self x l) b y hx hP)
        (fun z hz => hstep z (List.mem_cons_of_mem x hz))

theorem set_values_keys (col : Column) (c c' : Cell) (vals : List Value)
    (h : set_values col c vals = some c') (k : String) :
    (alookup c'.values k).isSome = (alookup c.values k).isSome := by
  refine foldlM_option_preserve _ (fun y => (alookup y.values k).isSome
    = (alookup c.values k).isSome) _ c c' h rfl ?_
  intro x hx y y' hy hP
  rw [change_code_keys y y' x.1 x.2 hy k, hP]

theorem new_cell_keys (col : Column) (vals : List Value) (kwargs : List (String × Value))
    (col' : Column) (c : Cell) (h : col.new_cell vals kwargs = some (col', c)) :
    ∀ k, (alookup c.values k).isSome ↔ k ∈ col.codelist := by
  intro k
  have hbase : (alookup (mkBaseCell col).values k).isSome = true ↔ k ∈ col.codelist := by
    rw [mkBaseCell]
    rw [alookup_initValues]
    by_cases hk : k ∈ col.codelist <;> simp [hk]
  rw [Column.new_cell] at h
  cases h1 : set_values col (mkBaseCell col) vals with
  | none => simp only [h1] at h; exact Option.noConfusion h
  | some c1 =>
    simp only [h1] at h
    cases h2 : kwargs.foldlM (fun c kv => c.change_code kv.1 kv.2) c1 with
    | none => simp only [h2] at h; exact Option.noConfusion h
    | some c2 =>
      simp only [h2] at h
      cases h3 : (col.codelist.filter (fun k => (alookup c2.values k).isNone)).foldlM
          (fun c k => c.change_code k (Value.str "")) c2 with
      | none => simp only [h3] at h; exact Option.noConfusion h
      | some c3 =>
        simp only [h3, Option.some_inj, Prod.mk.injEq] at h
        have hc : c = c3 := h.2.symm
        subst hc
        have e3 : (alookup c.values k).isSome = (alookup c2.values k).isSome := by
          refine foldlM_option_preserve _ (fun y => (alookup y.values k).isSome
            = (alookup c2.values k).isSome) _ c2 c h3 rfl ?_
          intro x hx y y' hy hP
          rw [change_code_keys y y' x (Value.str "") hy k, hP]
        have e2 : (alookup c2.values k).isSome = (alookup c1.values k).isSome := by
          refine foldlM_option_preserve _ (fun y => (alookup y.values k).isSome
            = (alookup c1.values k).isSome) _ c1 c2 h2 rfl ?_
          intro x hx y y' hy hP
          rw [change_code_keys y y' x.1 x.2 hy k, hP]
        have e1 : (alookup c1.values k).isSome = (alookup (mkBaseCell col).values k).isSome :=
          set_values_keys col (mkBaseCell col) c1 vals h1 k
        rw [e3, e2, e1]
        exact hbase

/-- The cell states reachable through the public cell API for a parent
column: freshly built by Column.new_cell, then transformed by any sequence
of change_code and set_values calls. -/
inductive ReachableCell (col : Column) : Cell → Prop where
  | base (vals : List Value) (kwargs : List (String × Value)) (col' : Column) (c : Cell) :
      col.new_cell vals kwargs = some (col', c) → ReachableCell col c
  | change (c : Cell) (code : String) (v : Value) (c' : Cell) :
      ReachableCell col c → c.change_code code v = some c' → ReachableCell col c'
  | setv (c : Cell) (vals : List Value) (c' : Cell) :
      ReachableCell col c → set_values col c vals = some c' → ReachableCell col c'

/-- C8 (confirmed): after construction and any sequence of change_code and
set_values operations, the key set of a cell's values dict is exactly the
parent column's declared codelist: a key is present exactly when it is a
declared code, so in particular ordinal, onset and offset never enter the
dict (their change_code branches only touch the dedicated fields). -/
theorem cell_values_keys_eq_codelist (col : Column) (c : Cell)
    (h : ReachableCell col c) :
    ∀ k, (alookup c.values k).isSome ↔ k ∈ col.codelist := by
  induction h with
  | base vals kwargs col' c hnc => exact new_cell_keys col vals kwargs col' c hnc
  | change c code v c' _ hcc ih =>
    intro k
    rw [change_code_keys c c' code v hcc k]
    exact ih k
  | setv c vals c' _ hsv ih =>
    intro k
    rw [set_values_keys col c c' vals hsv k]
    exact ih k

/-- C8 witness: a concrete fresh cell of a column declaring the single
code x has exactly the key x. -/
theorem cell_values_keys_eq_codelist_witness :
    (alookup (Cell.mk (Value.int 0) 0 0 [("x", Value.str "")]).values "x").isSome
      ↔ "x" ∈ (Column.mk "A" ["x"] []).codelist := by
  refine cell_values_keys_eq_codelist (Column.mk "A" ["x"] [])
    (Cell.mk (Value.int 0) 0 0 [("x", Value.str "")])
    (ReachableCell.base [] [] (Column.mk "A" ["x"]
      [Cell.mk (Value.int 0) 0 0 [("x", Value.str "")]])
      (Cell.mk (Value.int 0) 0 0 [("x", Value.str "")]) (by decide)) "x"

/-! ## Merge engine (py2vyu.py lines 121-189) -/

/-- The merged column's code list (py2vyu.py lines 134-139): for each
source column in order, colname_ordinal followed by colname_code for
every declared code. -/
def mergedCodes (cols : List Column) : List String :=
  cols.flatMap (fun col => ("ordinal" :: col.codelist).map (fun code => col.name ++ "_" ++ code))

/-- All cells of the source columns in iteration order (py2vyu.py line 143). -/
def allCells (cols : List Column) : List Cell :=
  cols.flatMap Column.cells

/-- The sorted distinct breakpoint sequence (py2vyu.py lines 144-162):
onsets and offsets of every cell, plus time+1 for every point cell
(onset == offset).  dict.fromkeys keeps first occurrences while
List.dedup keeps last; the difference is invisible under sorted(set(...)). -/
def breakpoints (cols : List Column) : List Int :=
  let unique_times := ((allCells cols).flatMap (fun c => [c.onset, c.offset])).dedup
  let point_times :=
    (((allCells cols).filter (fun c => c.onset == c.offset)).map (fun c => c.onset)).dedup
  List.insertionSort (fun a b => a ≤ b) ((unique_times ++ point_times.map (fun t => t + 1)).dedup)

/-- One source column's contribution to a merged cell (py2vyu.py lines
178-179): copy the source cell's ordinal and every declared code value
under the column-prefixed names. -/
def copyCodes (col : Column) (src : Cell) (ncell : Cell) : Option Cell :=
  ("ordinal" :: col.codelist).foldlM
    (fun nc code =>
      match src.get_code code with
      | none => none
      | some v => nc.change_code (col.name ++ "_" ++ code) v)
    ncell

/-- The per-column body of the interval loop (py2vyu.py lines 172-180):
look up the cell spanning the interval onset; a point cell is skipped
unless the interval itself is a point interval. -/
def fillFromCol (onset offset : Int) (ncell : Cell) (col : Column) : Option Cell :=
  match col.cell_at onset with
  | none => some ncell
  | some cell =>
    if onset ≠ offset ∧ cell.onset = cell.offset then some ncell
    else copyCodes col cell ncell

/-- The interval loop of merge_columns (py2vyu.py lines 164-187): walk the
remaining breakpoints, build one cell per interval via new_cell on the
merged column, fill it from each source column, and keep it unless
pruning discards an empty cell (the ordinal counter is then reused, and
prev_time always advances to offset + 1).  Appending each kept cell and
removing a freshly appended empty one is embedded as a conditional cons. -/
def mergeLoop (cols : List Column) (name : String) (ncodes : List String) :
    List Int → Int → Int → Bool → Option (List Cell)
  | [], _, _, _ => some []
  | t :: rest, ord, prev, prune =>
    match (Column.mk name ncodes []).new_cell []
        [("ordinal", Value.int ord), ("onset", Value.int prev), ("offset", Value.int t)] with
    | none => none
    | some (_, base) =>
      match cols.foldlM (fillFromCol prev t) base with
      | none => none
      | some ncell =>
        if prune && ncell.isempty then
          mergeLoop cols name ncodes rest ord (t + 1) prune
        else
          match mergeLoop cols name ncodes rest (ord + 1) (t + 1) prune with
          | none => none
          | some cs => some (ncell :: cs)

/-- Spreadsheet.merge_columns (py2vyu.py lines 121-189) on an explicitly
resolved column list.  none embeds an exception: the IndexError raised on
times[0] when the selected columns contain no cells, or any exception
from the loop body. -/
def merge_columns (name : String) (prune : Bool) (cols : List Column) : Option Column :=
  match breakpoints cols with
  | [] => none
  | t0 :: rest =>
    (mergeLoop cols name (mergedCodes cols) rest 1 t0 prune).map
      (fun cs => Column.mk name (mergedCodes cols) cs)

/-! ### Merge lemmas -/

theorem prefixed_ne (nm code : String) :
    nm ++ "_" ++ code ≠ "ordinal" ∧ nm ++ "_" ++ code ≠ "onset" ∧
      nm ++ "_" ++ code ≠ "offset" := by
  have hmem : '_' ∈ (nm ++ "_" ++ code).data := by
    rw [String.data_append, String.data_append]
    exact List.mem_append.mpr (Or.inl (List.mem_append.mpr (Or.inr (by decide))))
  refine ⟨fun h => ?_, fun h => ?_, fun h => ?_⟩ <;> rw [h] at hmem <;> revert hmem <;> decide

theorem change_code_intrinsics (c c' : Cell) (code : String) (v : Value)
    (h : c.change_code code v = some c')
    (h1 : code ≠ "ordinal") (h2 : code ≠ "onset") (h3 : code ≠ "offset") :
    c'.onset = c.onset ∧ c'.offset = c.offset ∧ c'.ordinal = c.ordinal := by
  rw [Cell.change_code, if_neg h1, if_neg h2, if_neg h3] at h
  split_ifs at h with h4
  · cases h
    exact ⟨rfl, rfl, rfl⟩

theorem copyCodes_intrinsics (col : Column) (src ncell nc' : Cell)
    (h : copyCodes col src ncell = some nc') :
    nc'.onset = ncell.onset ∧ nc'.offset = ncell.offset ∧ nc'.ordinal = ncell.ordinal := by
  refine foldlM_option_preserve _ (fun y => y.onset = ncell.onset ∧ y.offset = ncell.offset
    ∧ y.ordinal = ncell.ordinal) _ _ _ h ⟨rfl, rfl, rfl⟩ ?_
  intro code hcode y y' hy hP
  cases hg : src.get_code code with
  | none => rw [hg] at hy; exact Option.noConfusion hy
  | some v =>
    rw [hg] at hy
    obtain ⟨e1, e2, e3⟩ := change_code_intrinsics y y' (col.name ++ "_" ++ code) v hy
      (prefixed_ne col.name code).1 (prefixed_ne col.name code).2.1
      (prefixed_ne col.name code).2.2
    exact ⟨e1.trans hP.1, e2.trans hP.2.1, e3.trans hP.2.2⟩

theorem fill_intrinsics (cols : List Column) (onset offset : Int) (base ncell : Cell)
    (h : cols.foldlM (fillFromCol onset offset) base = some ncell) :
    ncell.onset = base.onset ∧ ncell.offset = base.offset ∧ ncell.ordinal = base.ordinal := by
  refine foldlM_option_preserve _ (fun y => y.onset = base.onset ∧ y.offset = base.offset
    ∧ y.ordinal = base.ordinal) _ _ _ h ⟨rfl, rfl, rfl⟩ ?_
  intro col hcol y y' hy hP
  rw [fillFromCol] at hy
  cases hc : col.cell_at onset with
  | none =>
    simp only [hc] at hy
    cases hy
    exact hP
  | some cell =>
    simp only [hc] at hy
    split_ifs at hy with hskip
    · cases hy
      exact hP
    · obtain ⟨e1, e2, e3⟩ := copyCodes_intrinsics col cell y y' hy
      exact ⟨e1.trans hP.1, e2.trans hP.2.1, e3.trans hP.2.2⟩

theorem new_cell_intrinsics (name : String) (ncodes : List String) (a b c : Int) :
    (Column.mk name ncodes []).new_cell []
        [("ordinal", Value.int a), ("onset", Value.int b), ("offset", Value.int c)]
      = some (Column.mk name ncodes [Cell.mk (Value.int a) b c (initValues ncodes)],
          Cell.mk (Value.int a) b c (initValues ncodes)) := by
  rw [Column.new_cell]
  have h1 : set_values (Column.mk name ncodes []) (mkBaseCell (Column.mk name ncodes [])) []
      = some (mkBaseCell (Column.mk name ncodes [])) := by
    rw [set_values]
    simp [List.zip_nil_right]
  have h2 : [("ordinal", Value.int a), ("onset", Value.int b),
        ("offset", Value.int c)].foldlM
      (fun cc kv => cc.change_code kv.1 kv.2) (mkBaseCell (Column.mk name ncodes []))
      = some (Cell.mk (Value.int a) b c (initValues ncodes)) := by
    simp [List.foldlM_cons, List.foldlM_nil, Cell.change_code, to_millis_val, mkBaseCell]
  have h3 : ncodes.filter
      (fun k => (alookup (Cell.mk (Value.int a) b c (initValues ncodes)).values k).isNone)
      = [] := by
    rw [List.filter_eq_nil_iff]
    intro k hk
    show ¬(alookup (initValues ncodes) k).isNone = true
    rw [alookup_initValues]
    simp [hk]
  simp only [h1, h2, h3, List.foldlM_nil, List.nil_append]

theorem mergeLoop_shape (cols : List Column) (name : String) (ncodes : List String) :
    ∀ (ts : List Int) (ord prev : Int) (cs : List Cell),
      mergeLoop cols name ncodes ts ord prev false = some cs →
      cs.length = ts.length ∧
      List.Chain' (fun a b => a.offset + 1 = b.onset) cs ∧
      (∀ c0 ∈ cs.head?, c0.onset = prev) ∧
      (∀ cl ∈ cs.getLast?, ∃ tl ∈ ts.getLast?, cl.offset = tl) := by
  intro ts
  induction ts with
  | nil =>
    intro ord prev cs h
    rw [mergeLoop] at h
    cases h
    exact ⟨rfl, List.chain'_nil, by simp, by simp⟩
  | cons t rest ih =>
    intro ord prev cs h
    rw [mergeLoop] at h
    simp only [new_cell_intrinsics name ncodes ord prev t] at h
    cases hf : cols.foldlM (fillFromCol prev t)
        (Cell.mk (Value.int ord) prev t (initValues ncodes)) with
    | none =>
      simp only [hf] at h
      exact Option.noConfusion h
    | some ncell =>
      simp only [hf, Bool.false_and, Bool.false_eq_true, if_false] at h
      cases hr : mergeLoop cols name ncodes rest (ord + 1) (t + 1) false with
      | none =>
        simp only [hr] at h
        exact Option.noConfusion h
      | some cs' =>
        simp only [hr, Option.some_inj] at h
        subst h
        obtain ⟨hon, hoff, -⟩ := fill_intrinsics cols prev t _ ncell hf
        obtain ⟨ihlen, ihchain, ihhead, ihlast⟩ := ih (ord + 1) (t + 1) cs' hr
        refine ⟨by simp [ihlen], ?_, ?_, ?_⟩
        · rw [List.chain'_cons']
          refine ⟨?_, ihchain⟩
          intro b hb
          rw [hoff, ihhead b hb]
        · intro c0 hc0
          simp only [List.head?_cons, Option.mem_def, Option.some_inj] at hc0
          rw [← hc0, hon]
        · intro cl hcl
          cases hcs' : cs' with
          | nil =>
            subst hcs'
            have hrest : rest = [] := by
              rw [List.length_nil] at ihlen
              exact List.eq_nil_of_length_eq_zero ihlen.symm
            subst hrest
            rw [List.getLast?_singleton, Option.mem_def, Option.some_inj] at hcl
            refine ⟨t, by simp, ?_⟩
            rw [← hcl, hoff]
          | cons c1 cs'' =>
            subst hcs'
            obtain ⟨r1, rest', rfl⟩ : ∃ r1 rest', rest = r1 :: rest' := by
              cases rest with
              | nil => simp at ihlen
              | cons r1 rest' => exact ⟨r1, rest', rfl⟩
            rw [List.getLast?_cons_cons] at hcl
            obtain ⟨tl, htl, hoffeq⟩ := ihlast cl hcl
            refine ⟨tl, ?_, hoffeq⟩
            rw [List.getLast?_cons_cons]
            exact htl

theorem mergeLoop_prune_nonempty (cols : List Column) (name : String) (ncodes : List String) :
    ∀ (ts : List Int) (ord prev : Int) (cs : List Cell),
      mergeLoop cols name ncodes ts ord prev true = some cs →
      ∀ c ∈ cs, c.isempty = false := by
  intro ts
  induction ts with
  | nil =>
    intro ord prev cs h
    rw [mergeLoop] at h
    cases h
    intro c hc
    exact absurd hc (List.not_mem_nil c)
  | cons t rest ih =>
    intro ord prev cs h
    rw [mergeLoop] at h
    simp only [new_cell_intrinsics name ncodes ord prev t] at h
    cases hf : cols.foldlM (fillFromCol prev t)
        (Cell.mk (Value.int ord) prev t (initValues ncodes)) with
    | none =>
      simp only [hf] at h
      exact Option.noConfusion h
    | some ncell =>
      simp only [hf, Bool.true_and] at h
      cases hemp : ncell.isempty with
      | true =>
        simp only [hemp, if_true] at h
        exact ih ord (t + 1) cs h
      | false =>
        simp only [hemp, Bool.false_eq_true, if_false] at h
        cases hr : mergeLoop cols name ncodes rest (ord + 1) (t + 1) true with
        | none =>
          simp only [hr] at h
          exact Option.noConfusion h
        | some cs' =>
          simp only [hr, Option.some_inj] at h
          subst h
          intro c hc
          rcases List.mem_cons.mp hc with rfl | hmem
          · exact hemp
          · exact ih (ord + 1) (t + 1) cs' hr c hmem

theorem mem_breakpoints (cols : List Column) (x : Int) :
    x ∈ breakpoints cols ↔
      (∃ c ∈ allCells cols, x = c.onset ∨ x = c.offset) ∨
      (∃ c ∈ allCells cols, c.onset = c.offset ∧ x = c.onset + 1) := by
  rw [breakpoints, List.mem_insertionSort]
  simp only [List.mem_dedup, List.mem_append, List.mem_flatMap, List.mem_map,
    List.mem_filter, List.mem_cons, List.not_mem_nil, or_false, beq_iff_eq]
  constructor
  · rintro (⟨c, hc, hx⟩ | ⟨t, ⟨c, ⟨hc, hpt⟩, rfl⟩, rfl⟩)
    · exact Or.inl ⟨c, hc, hx⟩
    · exact Or.inr ⟨c, hc, hpt, rfl⟩
  · rintro (⟨c, hc, hx⟩ | ⟨c, hc, hpt, rfl⟩)
    · exact Or.inl ⟨c, hc, hx⟩
    · exact Or.inr ⟨c.onset, ⟨c, ⟨hc, hpt⟩, rfl⟩, rfl⟩

theorem breakpoints_sorted (cols : List Column) :
    List.Sorted (fun a b => (a : Int) ≤ b) (breakpoints cols) := by
  rw [breakpoints]
  exact List.sorted_insertionSort _ _

theorem getLast?_mem : ∀ {l : List Int} {a : Int}, l.getLast? = some a → a ∈ l := by
  intro l
  induction l with
  | nil => intro a h; exact Option.noConfusion h
  | cons t l ih =>
    intro a h
    cases l with
    | nil =>
      rw [List.getLast?_singleton, Option.some_inj] at h
      rw [h]
      exact List.mem_cons_self _ _
    | cons t2 l2 =>
      rw [List.getLast?_cons_cons] at h
      exact List.mem_cons_of_mem t (ih h)

theorem sorted_head_le {t : Int} {l : List Int}
    (hs : List.Sorted (fun a b => (a : Int) ≤ b) (t :: l))
    {x : Int} (hx : x ∈ t :: l) : t ≤ x := by
  rcases List.mem_cons.mp hx with rfl | hx
  · exact le_refl x
  · exact (List.sorted_cons.mp hs).1 x hx

theorem sorted_le_getLast : ∀ {l : List Int},
    List.Sorted (fun a b => (a : Int) ≤ b) l →
    ∀ {x : Int}, x ∈ l → ∀ {m : Int}, l.getLast? = some m → x ≤ m := by
  intro l
  induction l with
  | nil => intro _ x hx; exact absurd hx (List.not_mem_nil x)
  | cons t l ih =>
    intro hs x hx m hm
    cases l with
    | nil =>
      rcases List.mem_cons.mp hx with rfl | hx
      · rw [List.getLast?_singleton, Option.some_inj] at hm
        rw [hm]
      · exact absurd hx (List.not_mem_nil x)
    | cons t2 l2 =>
      rw [List.getLast?_cons_cons] at hm
      rcases List.mem_cons.mp hx with rfl | hx
      · exact (List.sorted_cons.mp hs).1 m (getLast?_mem hm)
      · exact ih (List.sorted_cons.mp hs).2 hx hm

/-- The rightmost breakpoint a cell contributes: offset + 1 for a point
cell (onset = offset), offset otherwise. -/
def pointAdj (c : Cell) : Int := if c.onset = c.offset then c.offset + 1 else c.offset

theorem onset_mem_breakpoints {cols : List Column} {c : Cell} (hc : c ∈ allCells cols) :
    c.onset ∈ breakpoints cols :=
  (mem_breakpoints cols c.onset).mpr (Or.inl ⟨c, hc, Or.inl rfl⟩)

theorem pointAdj_mem_breakpoints {cols : List Column} {c : Cell} (hc : c ∈ allCells cols) :
    pointAdj c ∈ breakpoints cols := by
  rw [pointAdj]
  split_ifs with hpt
  · exact (mem_breakpoints cols (c.offset + 1)).mpr (Or.inr ⟨c, hc, hpt, by rw [hpt]⟩)
  · exact (mem_breakpoints cols c.offset).mpr (Or.inl ⟨c, hc, Or.inr rfl⟩)

theorem onset_lt_pointAdj {c : Cell} (hle : c.onset ≤ c.offset) : c.onset < pointAdj c := by
  rw [pointAdj]
  split_ifs with hpt <;> omega

/-- C1 (amended): with pruning disabled and at least one input cell, each
with onset ≤ offset, the merged column tiles the extended breakpoint
range: walking its cells in order, offset + 1 equals the next onset; the
first cell's onset is the minimum input onset; the last cell's offset is
the maximum over input cells of their rightmost breakpoint (offset + 1
for a point cell, offset otherwise) - so it exceeds the maximum input
offset by one when a point cell sits at that maximum.  With pruning
enabled the tiling claim fails because empty intervals are removed. -/
theorem merge_columns_tiling_amended (name : String) (cols : List Column) (ncol : Column)
    (hle : ∀ c ∈ allCells cols, c.onset ≤ c.offset)
    (hne : allCells cols ≠ [])
    (hm : merge_columns name false cols = some ncol) :
    List.Chain' (fun a b => a.offset + 1 = b.onset) ncol.cells ∧
    (∃ c0, ncol.cells.head? = some c0 ∧
      (∀ c ∈ allCells cols, c0.onset ≤ c.onset) ∧
      (∃ c ∈ allCells cols, c0.onset = c.onset)) ∧
    (∃ cl, ncol.cells.getLast? = some cl ∧
      (∀ c ∈ allCells cols, pointAdj c ≤ cl.offset) ∧
      (∃ c ∈ allCells cols, cl.offset = pointAdj c)) := by
  rw [merge_columns] at hm
  cases hbp : breakpoints cols with
  | nil =>
    simp only [hbp] at hm
    exact Option.noConfusion hm
  | cons t0 rest =>
    simp only [hbp] at hm
    obtain ⟨cs, hml, hcol⟩ := Option.map_eq_some'.mp hm
    obtain ⟨hlen, hchain, hhead, hlast⟩ := mergeLoop_shape cols name (mergedCodes cols)
      rest 1 t0 cs hml
    have hsorted : List.Sorted (fun a b => (a : Int) ≤ b) (t0 :: rest) := by
      rw [← hbp]; exact breakpoints_sorted cols
    obtain ⟨cw, hcw⟩ := List.exists_mem_of_ne_nil _ hne
    have hrest_ne : rest ≠ [] := by
      intro hr
      have h1 : cw.onset ∈ t0 :: rest := by rw [← hbp]; exact onset_mem_breakpoints hcw
      have h2 : pointAdj cw ∈ t0 :: rest := by rw [← hbp]; exact pointAdj_mem_breakpoints hcw
      rw [hr] at h1 h2
      simp only [List.mem_singleton] at h1 h2
      have := onset_lt_pointAdj (hle cw hcw)
      omega
    have hcs_ne : cs ≠ [] := by
      intro hcs
      rw [hcs, List.length_nil] at hlen
      exact hrest_ne (List.eq_nil_of_length_eq_zero hlen.symm)
    have hcells : ncol.cells = cs := by rw [← hcol]
    refine ⟨by rw [hcells]; exact hchain, ?_, ?_⟩
    · cases hcs : cs with
      | nil => exact absurd hcs hcs_ne
      | cons c0 cs' =>
        refine ⟨c0, by rw [hcells, hcs]; rfl, ?_, ?_⟩
        · intro c hc
          have h0 : c0.onset = t0 := by
            apply hhead
            rw [hcs]
            rfl
          rw [h0]
          exact sorted_head_le hsorted (by rw [← hbp]; exact onset_mem_breakpoints hc)
        · have h0 : c0.onset = t0 := by
            apply hhead
            rw [hcs]
            rfl
          have ht0 : t0 ∈ breakpoints cols := by rw [hbp]; exact List.mem_cons_self _ _
          rcases (mem_breakpoints cols t0).mp ht0 with ⟨c, hc, hco⟩ | ⟨c, hc, hpt, hco⟩
          · rcases hco with hco | hco
            · exact ⟨c, hc, by rw [h0, hco]⟩
            · refine ⟨c, hc, ?_⟩
              have hin : c.onset ∈ t0 :: rest := by
                rw [← hbp]; exact onset_mem_breakpoints hc
              have := sorted_head_le hsorted hin
              have := hle c hc
              omega
          · exfalso
            have hin : c.onset ∈ t0 :: rest := by
              rw [← hbp]; exact onset_mem_breakpoints hc
            have := sorted_head_le hsorted hin
            omega
    · cases hgl : cs.getLast? with
      | none =>
        exfalso
        rw [List.getLast?_eq_none_iff] at hgl
        exact hcs_ne hgl
      | some cl =>
        obtain ⟨tl, htl, hoffeq⟩ := hlast cl hgl
        have htl_bp : (breakpoints cols).getLast? = some tl := by
          rw [hbp]
          cases hrest : rest with
          | nil => exact absurd hrest hrest_ne
          | cons r1 rest' =>
            rw [List.getLast?_cons_cons]
            rw [hrest] at htl
            exact htl
        refine ⟨cl, by rw [hcells]; exact hgl, ?_, ?_⟩
        · intro c hc
          rw [hoffeq]
          exact sorted_le_getLast (by rw [hbp]; exact hsorted)
            (pointAdj_mem_breakpoints hc) htl_bp
        · have htl_mem : tl ∈ breakpoints cols := getLast?_mem htl_bp
          have htl_max : ∀ x ∈ breakpoints cols, x ≤ tl := fun x hx =>
            sorted_le_getLast (by rw [hbp]; exact hsorted) hx htl_bp
          rcases (mem_breakpoints cols tl).mp htl_mem with ⟨c, hc, hco⟩ | ⟨c, hc, hpt, hco⟩
          · rcases hco with hco | hco
            · exfalso
              have hpa := htl_max _ (pointAdj_mem_breakpoints hc)
              have := onset_lt_pointAdj (hle c hc)
              omega
            · refine ⟨c, hc, ?_⟩
              by_cases hpt : c.onset = c.offset
              · exfalso
                have hpa := htl_max _ (pointAdj_mem_breakpoints hc)
                rw [pointAdj, if_pos hpt] at hpa
                omega
              · rw [hoffeq, hco, pointAdj, if_neg hpt]
          · refine ⟨c, hc, ?_⟩
            rw [hoffeq, hco, pointAdj, if_pos hpt, hpt]

/-- Source column for the C1 counterexample: cells [0,5] and [10,20]
leave the uncovered interval (6,10), whose merged cell is empty and is
removed by pruning. -/
def colGap : Column :=
  Column.mk "A" ["x"]
    [Cell.mk (Value.int 1) 0 5 [("x", Value.str "a")],
     Cell.mk (Value.int 2) 10 20 [("x", Value.str "b")]]

/-- C1 counterexample: with pruning (the default), merging colGap yields
cells spanning [0,5] and [11,20]; walking them in ordinal order gives
offset + 1 = 6 for the first but onset 11 for the second, so consecutive
merged cells do not satisfy the claimed tiling equation. -/
theorem merge_columns_tiling_cex :
    (merge_columns "m" true [colGap]).map
        (fun nc => nc.cells.map (fun c => (c.onset, c.offset)))
      = some [(0, 5), (11, 20)] ∧ ¬((5 : Int) + 1 = 11) :=
  ⟨rfl, by decide⟩

/-- A one-cell source column and the corresponding merged column, used to
witness the merge theorems. -/
def colW : Column := Column.mk "A" ["x"] [Cell.mk (Value.int 1) 0 5 [("x", Value.str "a")]]

def ncolW : Column :=
  Column.mk "m" ["A_ordinal", "A_x"]
    [Cell.mk (Value.int 1) 0 5 [("A_ordinal", Value.int 1), ("A_x", Value.str "a")]]

/-- C1 witness: the amended tiling theorem applied to the one-cell column. -/
theorem merge_columns_tiling_amended_witness :
    List.Chain' (fun a b => a.offset + 1 = b.onset) ncolW.cells ∧
    (∃ c0, ncolW.cells.head? = some c0 ∧
      (∀ c ∈ allCells [colW], c0.onset ≤ c.onset) ∧
      (∃ c ∈ allCells [colW], c0.onset = c.onset)) ∧
    (∃ cl, ncolW.cells.getLast? = some cl ∧
      (∀ c ∈ allCells [colW], pointAdj c ≤ cl.offset) ∧
      (∃ c ∈ allCells [colW], cl.offset = pointAdj c)) :=
  merge_columns_tiling_amended "m" [colW] ncolW (by decide) (by decide) rfl

/-- C3 (confirmed): with pruning enabled no merged cell has all of its
code values empty or None (cells failing this are removed right after
construction); with pruning disabled the merged column has exactly one
cell per consecutive pair of breakpoints, i.e. the number of distinct
boundary timestamps in the extended breakpoint sequence minus one. -/
theorem merge_columns_pruning (name : String) (cols : List Column) (ncolP ncolN : Column)
    (hmP : merge_columns name true cols = some ncolP)
    (hmN : merge_columns name false cols = some ncolN) :
    (∀ c ∈ ncolP.cells, c.isempty = false) ∧
    ncolN.cells.length + 1 = (breakpoints cols).length := by
  constructor
  · rw [merge_columns] at hmP
    cases hbp : breakpoints cols with
    | nil =>
      simp only [hbp] at hmP
      exact Option.noConfusion hmP
    | cons t0 rest =>
      simp only [hbp] at hmP
      obtain ⟨cs, hml, hcol⟩ := Option.map_eq_some'.mp hmP
      have hcells : ncolP.cells = cs := by rw [← hcol]
      rw [hcells]
      exact mergeLoop_prune_nonempty cols name (mergedCodes cols) rest 1 t0 cs hml
  · rw [merge_columns] at hmN
    cases hbp : breakpoints cols with
    | nil =>
      simp only [hbp] at hmN
      exact Option.noConfusion hmN
    | cons t0 rest =>
      simp only [hbp] at hmN
      obtain ⟨cs, hml, hcol⟩ := Option.map_eq_some'.mp hmN
      have hcells : ncolN.cells = cs := by rw [← hcol]
      obtain ⟨hlen, -, -, -⟩ := mergeLoop_shape cols name (mergedCodes cols) rest 1 t0 cs hml
      simp [hcells, hlen, hbp]

/-- C3 witness: the pruning theorem applied to the one-cell column, whose
merge has one non-empty cell and two breakpoints. -/
theorem merge_columns_pruning_witness :
    (∀ c ∈ ncolW.cells, c.isempty = false) ∧
    ncolW.cells.length + 1 = (breakpoints [colW]).length :=
  merge_columns_pruning "m" [colW] ncolW ncolW rfl rfl

/-- The point-cell scenario of C2: one point cell (3000,3000,(p)) in
column A, merged with the empty column B. -/
def colPoint : Column :=
  Column.mk "A" ["x"] [Cell.mk (Value.int 1) 3000 3000 [("x", Value.str "p")]]

def colEmptyB : Column := Column.mk "B" ["y"] []

/-- C2 (code bug): merging the point-cell column with an empty column
loses the point's value entirely.  The breakpoints are [3000, 3001], so
the only interval is (3000, 3001), which is not a point interval; the
point cell spanning its onset is therefore skipped, leaving the merged
cell with every code empty.  With pruning (the default) the merged column
is empty; without pruning the single cell carries no value p.  No
dedicated interval carrying p exists in either output. -/
theorem merge_point_value_lost :
    merge_columns "m" true [colPoint, colEmptyB]
      = some (Column.mk "m" ["A_ordinal", "A_x", "B_ordinal", "B_y"] []) ∧
    merge_columns "m" false [colPoint, colEmptyB]
      = some (Column.mk "m" ["A_ordinal", "A_x", "B_ordinal", "B_y"]
          [Cell.mk (Value.int 1) 3000 3001
            [("A_ordinal", Value.str ""), ("A_x", Value.str ""),
             ("B_ordinal", Value.str ""), ("B_y", Value.str "")]]) :=
  ⟨rfl, rfl⟩

/-- C10 (confirmed): when the selected source columns contain no cells,
the boundary set is empty and merge_columns raises (times[0] on the empty
sorted list) instead of returning an empty merged column. -/
theorem merge_columns_empty_raises (name : String) (prune : Bool) (cols : List Column)
    (h : ∀ col ∈ cols, col.cells = []) : merge_columns name prune cols = none := by
  have hall : allCells cols = [] := by
    rw [allCells, List.flatMap_eq_nil_iff]
    exact h
  have hbp : breakpoints cols = [] := by
    rw [breakpoints, hall]
    rfl
  rw [merge_columns, hbp]

/-- C10 witness: merging a single column that has no cells raises. -/
theorem merge_columns_empty_raises_witness :
    merge_columns "m" true [Column.mk "E" ["x"] []] = none :=
  merge_columns_empty_raises "m" true [Column.mk "E" ["x"] []] (by simp)

/-! ## Spreadsheet (py2vyu.py lines 95-107).

The class body assigns an empty dict to columns once at class creation
and __init__ is pass, so self.columns on every instance resolves to the
single class-level dict, and new_column mutates that dict in place.  The
class attribute is embedded as explicit world state, and a Spreadsheet
instance is a bare identity carrying no per-instance columns field. -/

structure PyWorld where
  classColumns : List (String × Column)
deriving DecidableEq

/-- A Spreadsheet instance; __init__ stores nothing on the instance. -/
structure Spreadsheet where
  id : Nat
deriving DecidableEq

/-- The attribute read self.columns: no instance attribute was ever
assigned, so Python falls back to the shared class attribute. -/
def Spreadsheet.columns (_s : Spreadsheet) (w : PyWorld) : List (String × Column) :=
  w.classColumns

/-- Spreadsheet.new_column (py2vyu.py lines 104-107): builds the column
and runs the item assignment self.columns[name] = ncol, which mutates the
shared class dict. -/
def Spreadsheet.new_column (_s : Spreadsheet) (w : PyWorld) (name : String)
    (codes : List String) : PyWorld × Column :=
  (PyWorld.mk (aset w.classColumns name (Column.mk name codes [])), Column.mk name codes [])

/-- C5 (code bug): columns is a class-level attribute shared by every
Spreadsheet instance.  Starting from a fresh class state, adding column A
through instance 0 makes it visible through the distinct instance 1,
whose columns mapping was never independent. -/
theorem spreadsheet_columns_shared :
    Spreadsheet.mk 0 ≠ Spreadsheet.mk 1 ∧
    Spreadsheet.columns (Spreadsheet.mk 1)
        (Spreadsheet.new_column (Spreadsheet.mk 0) (PyWorld.mk []) "A" ["x"]).1
      = [("A", Column.mk "A" ["x"] [])] :=
  ⟨by decide, rfl⟩

/-! ## Query helpers (py2vyu.py lines 205-221 and 256-260). -/

/-- Spreadsheet.cells_at (py2vyu.py lines 213-221) on a resolved column
list: the per-column spanning cell, with None for a column that has no
spanning cell. -/
def cells_at (cols : List Column) (t : Int) : List (Option Cell) :=
  cols.map (fun col => col.cell_at t)

/-- The expression cell.values() evaluated on an element of cells_at
(py2vyu.py line 211).  Cell.values is a dict attribute, not a method:
calling it on a cell object raises TypeError (a dict is not callable),
and evaluating it on None raises AttributeError; either way the
expression never returns a value. -/
def callValues : Option Cell → Option (List Value)
  | none => none
  | some _ => none

/-- Spreadsheet.values_at (py2vyu.py lines 205-211) on a resolved column
list: the comprehension flattening cell.values() over cells_at, aborted
by the exception raised at the first column. -/
def values_at (cols : List Column) (t : Int) : Option (List Value) :=
  (cells_at cols t).foldlM (fun acc oc => (callValues oc).map (fun vs => acc ++ vs)) []

def colHi : Column :=
  Column.mk "H" ["x"] [Cell.mk (Value.int 1) 0 5 [("x", Value.str "hi")]]

/-- C9 (code bug): values_at never returns the flattened code values.
Column colHi has a cell spanning time 3 whose declared code x holds the
value hi, so the claim requires the result [hi]; the code instead raises
TypeError on cell.values() because values is the dict attribute, and a
column without a spanning cell would raise AttributeError on
None.values() rather than contribute nothing. -/
theorem values_at_raises :
    values_at [colHi] 3 = none ∧
    colHi.cell_at 3 = some (Cell.mk (Value.int 1) 0 5 [("x", Value.str "hi")]) ∧
    alookup (Cell.mk (Value.int 1) 0 5 [("x", Value.str "hi")]).values "x"
      = some (Value.str "hi") :=
  ⟨rfl, rfl, rfl⟩

/-! ## save_opf (py2vyu.py lines 71-92).

A zip archive is embedded as its comment plus ordered member list, the
filesystem as a path-to-archive map, and each Python statement that
changes the filesystem as one atomic step; the trace lists the state
after each step, so an interruption after step k leaves exactly state k. -/

structure Archive where
  comment : String
  members : List (String × String)
deriving DecidableEq

/-- The filesystem states save_opf passes through, in order: initial;
after mkstemp creates the empty temp file (line 77); after the copy loop
writes the comment and every non-db member into the temp archive (lines
81-86); after os.remove deletes the original (line 88); after os.rename
moves the temp over the original name (line 89); after writestr appends
the new db member (lines 91-92). -/
def save_opf_states (orig tmp : String) (fs0 : List (String × Archive)) (newdb : String) :
    List (List (String × Archive)) :=
  let origA := (alookup fs0 orig).getD (Archive.mk "" [])
  let fs1 := aset fs0 tmp (Archive.mk "" [])
  let fs2 := aset fs1 tmp
    (Archive.mk origA.comment (origA.members.filter (fun kv => kv.1 ≠ "db")))
  let fs3 := adel fs2 orig
  let tmpA := (alookup fs3 tmp).getD (Archive.mk "" [])
  let fs4 := aset (adel fs3 tmp) orig tmpA
  let origA2 := (alookup fs4 orig).getD (Archive.mk "" [])
  let fs5 := aset fs4 orig (Archive.mk origA2.comment (origA2.members ++ [("db", newdb)]))
  [fs0, fs1, fs2, fs3, fs4, fs5]

/-- C7 (code bug): save_opf deletes the original before the new db member
exists.  Mapping each intermediate state to the archive stored at the
original path: the original survives the temp copy, disappears entirely
after os.remove (an interruption here loses the file), reappears after
os.rename without any db member (an interruption here leaves a corrupt
archive), and only the final writestr completes the rewrite; so the run
passes through states in which neither the original nor the fully
rewritten file exists. -/
theorem save_opf_interruption_loses_original :
    (save_opf_states "f.opf" "f.tmp"
        [("f.opf", Archive.mk "" [("db", "old"), ("x", "keep")])] "new").map
        (fun fs => alookup fs "f.opf")
      = [some (Archive.mk "" [("db", "old"), ("x", "keep")]),
         some (Archive.mk "" [("db", "old"), ("x", "keep")]),
         some (Archive.mk "" [("db", "old"), ("x", "keep")]),
         none,
         some (Archive.mk "" [("x", "keep")]),
         some (Archive.mk "" [("x", "keep"), ("db", "new")])] :=
  rfl

end Py2vyu
